import Mathlib

/-!
Verification of the `poseidon-hash` reference implementation (plain Poseidon,
the Neptune-style optimized variant, and the parameter-generation machinery).

The Python source is shallowly embedded:
* python ints are `ℕ`/`ℤ`; field elements of `galois.GF(p)` are `ZMod p`;
* the permutation state (a 1-d galois array of length `t`) is `Fin t → ZMod p`;
* `np.matmul(M, state)` on a 1-d state is `Matrix.mulVec`, `np.dot(state, M)`
  and `state @ M` are `Matrix.vecMul`;
* imperative loops over state positions become structural recursions that
  thread the round-constant cursor exactly as the code does;
* calls that can raise become `Except`-style results (`PRes`), with a dedicated
  error constructor per Python exception class;
* the unbounded `while` loops of the Grain LFSR take an explicit fuel argument
  and return `Option`;
* `np.linalg.inv` (an external library call, not repository code) is
  modelled by passing the inverse matrix / inverse-times-vector result as an
  explicit argument, together with the defining equations the library
  guarantees (`m_inv * M = 1`, and the `assert m == m_1 @ m_2` factorization
  check that the source itself performs at construction time).
-/

namespace PoseidonVerify

/-! ## Grain LFSR round-constant generation (`round_constants.py`) -/

/-- Binary expansion worker, structurally recursive on a counter that is
always large enough (`k ≥ x` suffices, since halving `x` at least decrements
it). -/
def natBitsAux : ℕ → ℕ → List ℕ
  | 0, x => [x]
  | k + 1, x => if x < 2 then [x] else natBitsAux k (x / 2) ++ [x % 2]

/-- Binary digits of a natural number, most significant bit first, with
`natBits 0 = [0]`.  Mirrors Python `bin(x)[2:]` (as a list of 0/1 ints). -/
def natBits (x : ℕ) : List ℕ :=
  natBitsAux x x

/-- Left-pad a bit list with zeros to width `w`; never truncates.
Mirrors Python `str.zfill(w)` on a binary string. -/
def zfill (w : ℕ) (l : List ℕ) : List ℕ :=
  List.replicate (w - l.length) 0 ++ l

/-- `init_state_for_grain`: the 80-bit initial LFSR state.
2 bits for `p % 2`, 4 bits for the S-box class tag, 12 bits for
`prime_bit_len`, 12 bits for `t`, 10 bits for `full_round`, 10 bits for
`partial_round`, then 30 one bits. -/
def init_state_for_grain (alpha : ℤ) (p prime_bit_len t rF rP : ℕ) : List ℕ :=
  let exp_flag : ℕ := if alpha = 3 then 0 else if alpha = 5 then 1
    else if alpha = -1 then 2 else 3
  zfill 2 (natBits (p % 2)) ++ zfill 4 (natBits exp_flag) ++
    zfill 12 (natBits prime_bit_len) ++ zfill 12 (natBits t) ++
    zfill 10 (natBits rF) ++ zfill 10 (natBits rP) ++ List.replicate 30 1

/-- One feedback bit: `state[62] ^ state[51] ^ state[38] ^ state[23] ^
state[13] ^ state[0]` (the state always has 80 bits, so the defaulted
indexing never actually defaults). -/
def grainNewBit (state : List ℕ) : ℕ :=
  (state.getD 62 0) ^^^ (state.getD 51 0) ^^^ (state.getD 38 0) ^^^
    (state.getD 23 0) ^^^ (state.getD 13 0) ^^^ (state.getD 0 0)

/-- One LFSR step: compute the feedback bit, `pop(0)`, `append(new_bit)`. -/
def grainStep (state : List ℕ) : List ℕ :=
  state.tail ++ [grainNewBit state]

/-- `calc_next_bits`: self-shrinking extraction.  Generate bits in pairs;
keep the second bit of a pair only when the first bit is 1; stop once
`prime_bit_len` bits have been kept.  The Python `while` loop is unbounded,
so the embedding takes fuel (one unit per pair) and returns `none` on
exhaustion. -/
def calc_next_bits (prime_bit_len : ℕ) : ℕ → List ℕ → List ℕ → Option (List ℕ × List ℕ)
  | 0, _, _ => none
  | fuel + 1, state, bits =>
    if prime_bit_len ≤ bits.length then some (state, bits)
    else
      let new_bit_1 := grainNewBit state
      let state1 := grainStep state
      let new_bit_2 := grainNewBit state1
      let state2 := grainStep state1
      calc_next_bits prime_bit_len fuel state2
        (if new_bit_1 = 1 then bits ++ [new_bit_2] else bits)

/-- Big-endian evaluation of a bit list: `int("".join(bits), 2)`. -/
def bitsToNat (bits : List ℕ) : ℕ :=
  bits.foldl (fun a b => 2 * a + b) 0

/-- The accept/reject loop of `calc_round_constants`: keep drawing
`prime_bit_len`-bit integers from the self-shrinking stream, append those
that are `< p` (they are stored as field elements whose integer value is
unchanged), discard the rest, until `rc_number` constants are collected. -/
def calcRCAux (p prime_bit_len rc_number : ℕ) :
    ℕ → List ℕ → List ℕ → Option (List ℕ)
  | 0, _, _ => none
  | fuel + 1, state, rc_field =>
    if rc_number ≤ rc_field.length then some rc_field
    else
      match calc_next_bits prime_bit_len (fuel + 1) state [] with
      | none => none
      | some (state2, bits) =>
        let rc_int := bitsToNat bits
        calcRCAux p prime_bit_len rc_number fuel state2
          (if rc_int < p then rc_field ++ [rc_int] else rc_field)

/-- `calc_round_constants`: initialize the 80-bit Grain state, discard the
first 160 feedback bits, then run the self-shrinking accept/reject loop until
`t * (full_round + partial_round)` field elements are produced. -/
def calc_round_constants (fuel t rF rP p : ℕ) (alpha : ℤ) (prime_bit_len : ℕ) :
    Option (List ℕ) :=
  let rc_number := t * (rF + rP)
  let state0 := init_state_for_grain alpha p prime_bit_len t rF rP
  let state1 := grainStep^[160] state0
  calcRCAux p prime_bit_len rc_number fuel state1 []

lemma calcRCAux_spec (p prime_bit_len rc_number : ℕ) :
    ∀ (fuel : ℕ) (state acc : List ℕ) (l : List ℕ),
      acc.length ≤ rc_number → (∀ x ∈ acc, x < p) →
      calcRCAux p prime_bit_len rc_number fuel state acc = some l →
      l.length = rc_number ∧ ∀ x ∈ l, x < p := by
  intro fuel
  induction fuel with
  | zero => intro state acc l _ _ h; simp [calcRCAux] at h
  | succ n ih =>
    intro state acc l hlen hbound h
    rw [calcRCAux] at h
    by_cases hstop : rc_number ≤ acc.length
    · simp only [if_pos hstop] at h
      obtain rfl : acc = l := by exact Option.some.inj h
      exact ⟨le_antisymm hlen hstop, hbound⟩
    · simp only [if_neg hstop] at h
      match hnb : calc_next_bits prime_bit_len (n + 1) state [] with
      | none => rw [hnb] at h; exact absurd h (by simp)
      | some (state2, bits) =>
        rw [hnb] at h
        by_cases hacc : bitsToNat bits < p
        · simp only [if_pos hacc] at h
          refine ih state2 _ l ?_ ?_ h
          · simp only [List.length_append, List.length_cons, List.length_nil]
            omega
          · intro x hx
            rcases List.mem_append.mp hx with hx | hx
            · exact hbound x hx
            · simp only [List.mem_singleton] at hx; omega
        · simp only [if_neg hacc] at h
          exact ih state2 acc l hlen hbound h

/-- Claim C2: whenever `calc_round_constants` returns (i.e. the Grain
self-shrinking accept/reject loop terminates within the given fuel), the
returned list has exactly `t * (full_round + partial_round)` entries and every
entry is a field element in `[0, p)`.  The generation pipeline itself
(80-bit init, 160 discarded warm-up bits, paired self-shrinking extraction,
big-endian read of `prime_bit_len` kept bits, rejection of values `≥ p`) is
embedded definitionally in `calc_round_constants` above. -/
theorem calc_round_constants_count_and_range
    (fuel t rF rP p : ℕ) (alpha : ℤ) (prime_bit_len : ℕ) (l : List ℕ)
    (h : calc_round_constants fuel t rF rP p alpha prime_bit_len = some l) :
    l.length = t * (rF + rP) ∧ ∀ x ∈ l, x < p := by
  exact calcRCAux_spec p prime_bit_len (t * (rF + rP)) fuel _ [] l
    (by simp) (by simp) h

/-! ## Errors and results (`hash.py`)

Python exceptions become explicit error values: `ValueError('Invalid length
of input data')` is `invalidInputLength`, the `ValueError` raised at
construction for size mismatches is `invalidParameter`, a `galois` conversion
of an integer outside `[0, p)` is `conversion`, an out-of-range numpy index is
`indexError`, and a numpy dimension mismatch in `matmul`/`dot` is
`shapeError`. -/

inductive PErr
  | invalidInputLength
  | invalidParameter
  | conversion
  | indexError
  | shapeError
  deriving DecidableEq

/-- Result of a call that can raise. -/
inductive PRes (F : Type)
  | ok (v : F)
  | err (e : PErr)
  deriving DecidableEq

/-- `HashType` from `hash.py`. -/
inductive HashType
  | constInputLen
  | merkleTree
  deriving DecidableEq

/-- `galois.GF(p)(xs)`: converting a list of python ints to field elements
succeeds iff every entry lies in `[0, p)` (a `ValueError` otherwise). -/
def toFieldVec (p : ℕ) (xs : List ℕ) : Option (List (ZMod p)) :=
  if xs.all (fun x => decide (x < p)) then
    some (xs.map (fun x : ℕ => (x : ZMod p)))
  else none

/-! ## The permutation engine (`hash.py`)

Each `for i in range(0, t)` loop over the state positions is embedded as a
structural recursion `posLoop` on the number of positions already processed;
the round-constant cursor value at position `i` is `c + i` because every
iteration consumes exactly one constant.  `g v n` is the combined effect of
the (one or two) assignments to `state[i]` given the old value `v` and the
cursor `n`. -/

/-- The per-position state loop: process positions `0, …, k-1` in order,
replacing `state[i]` by `g state[i] (c + i)`. -/
def posLoop {F : Type} (t : ℕ) (g : F → ℕ → F) (c : ℕ) (s : Fin t → F) : ℕ → Fin t → F
  | 0 => s
  | k + 1 =>
    let s' := posLoop t g c s k
    if h : k < t then Function.update s' ⟨k, h⟩ (g (s' ⟨k, h⟩) (c + k)) else s'

lemma posLoop_apply {F : Type} (t : ℕ) (g : F → ℕ → F) (c : ℕ) (s : Fin t → F) (k : ℕ) :
    posLoop t g c s k = fun i => if i.val < k then g (s i) (c + i.val) else s i := by
  induction k with
  | zero => funext i; simp [posLoop]
  | succ k ih =>
    rw [posLoop, ih]
    by_cases h : k < t
    · simp only [dif_pos h]
      funext i
      by_cases hik : i = (⟨k, h⟩ : Fin t)
      · subst hik
        simp [Function.update_same]
      · rw [Function.update_noteq hik]
        have hvk : i.val ≠ k := fun hv => hik (Fin.ext hv)
        by_cases hlt : i.val < k
        · simp [hlt, Nat.lt_succ_of_lt hlt]
        · have : ¬ i.val < k + 1 := by omega
          simp [hlt, this]
    · simp only [dif_neg h]
      funext i
      have h1 : i.val < k := by have := i.isLt; omega
      simp [h1, Nat.lt_succ_of_lt h1]

lemma posLoop_all {F : Type} (t : ℕ) (g : F → ℕ → F) (c : ℕ) (s : Fin t → F) :
    posLoop t g c s t = fun i => g (s i) (c + i.val) := by
  rw [posLoop_apply]
  funext i
  simp [i.isLt]

section Engine

variable {F : Type} [CommRing F]

/-- `state[0] = s_box(state[0])` leaving the other positions unchanged. -/
def sboxAt0Vec (t : ℕ) (sbox : F → F) (s : Fin t → F) : Fin t → F :=
  fun i => if i.val = 0 then sbox (s i) else s i

/-- `s_box(element) = element ** alpha` (the positive-exponent case). -/
def s_box (alpha : ℕ) (x : F) : F := x ^ alpha

/-- One iteration of plain `Poseidon.full_rounds`: for each position add the
next round constant (advancing the cursor), apply the S-box, then
left-multiply the MDS matrix (`np.matmul(self.mds_matrix, self.state)`). -/
def full_round_plain (t : ℕ) (sbox : F → F) (M : Matrix (Fin t) (Fin t) F)
    (rc : ℕ → F) (sc : (Fin t → F) × ℕ) : (Fin t → F) × ℕ :=
  (Matrix.mulVec M (posLoop t (fun v n => sbox (v + rc n)) sc.2 sc.1 t), sc.2 + t)

/-- One iteration of plain `Poseidon.partial_rounds`: add a round constant at
every position (advancing the cursor `t` times), apply the S-box at position 0
only, then left-multiply the MDS matrix. -/
def part_round_plain (t : ℕ) (sbox : F → F) (M : Matrix (Fin t) (Fin t) F)
    (rc : ℕ → F) (sc : (Fin t → F) × ℕ) : (Fin t → F) × ℕ :=
  (Matrix.mulVec M (sboxAt0Vec t sbox (posLoop t (fun v n => v + rc n) sc.2 sc.1 t)),
    sc.2 + t)

/-- The round schedule of plain `Poseidon.run_hash` after the state is
initialized from the input and the cursor is reset: `half_full_round` full
rounds, `partial_round` partial rounds, `half_full_round` full rounds. -/
def plain_permute (t : ℕ) (sbox : F → F) (M : Matrix (Fin t) (Fin t) F)
    (rc : ℕ → F) (hf rP : ℕ) (v : Fin t → F) : Fin t → F :=
  ((full_round_plain t sbox M rc)^[hf]
    ((part_round_plain t sbox M rc)^[rP]
      ((full_round_plain t sbox M rc)^[hf] (v, 0)))).1

/-- The in-place padding performed by plain `run_hash` on its argument:
`input_vec.extend([0] * (t - len(input_vec)))` when the input is shorter than
`t`.  The returned list is the final value of the caller's list object. -/
def plain_pad (t : ℕ) (input : List ℕ) : List ℕ :=
  if input.length < t then input ++ List.replicate (t - input.length) 0 else input

/-- `Poseidon.run_hash`.  Returns the final value of the caller's (mutated)
input list together with the result.  Failure modes, in the order the code
hits them: `galois` conversion of a value outside `[0, p)`; a shape mismatch
in the first linear layer when the padded input is longer than `t` (every
instance performs at least one matrix product); indexing `state[1]` at the
end when `t < 2`. -/
def run_hash_plain (p t : ℕ) (sbox : ZMod p → ZMod p)
    (M : Matrix (Fin t) (Fin t) (ZMod p)) (rcl : List (ZMod p)) (hf rP : ℕ)
    (input : List ℕ) : List ℕ × PRes (ZMod p) :=
  let iv := plain_pad t input
  (iv,
    match toFieldVec p iv with
    | none => .err .conversion
    | some fs =>
      if iv.length = t then
        let out := plain_permute t sbox M (fun k => rcl.getD k 0) hf rP
          (fun i => fs.getD i.val 0)
        if h1 : 1 < t then .ok (out ⟨1, h1⟩) else .err .indexError
      else .err .shapeError)

/-! ### Round-level description of the plain permutation

`rcChunk rc r` is the `r`-th block of `t` consecutive round constants; the
cursor of round `r` starts at `r * t`.  `plain_spec_run` is the claimed
round structure: full rounds `0 … hf-1`, partial rounds `hf … hf+rP-1`, full
rounds `hf+rP … hf+rP+hf-1`, applied with `foldRounds` in ascending order. -/

/-- Block of `t` consecutive round constants used by round `r`. -/
def rcChunk (t : ℕ) (rc : ℕ → F) (r : ℕ) : Fin t → F :=
  fun i => rc (r * t + i.val)

/-- A full round as a whole-state function: add the constant block, apply the
S-box at every position, left-multiply the matrix. -/
def fullRoundSpec (t : ℕ) (sbox : F → F) (M : Matrix (Fin t) (Fin t) F)
    (ch : Fin t → F) (s : Fin t → F) : Fin t → F :=
  Matrix.mulVec M (fun i => sbox (s i + ch i))

/-- A partial round as a whole-state function: add the constant block at every
position, apply the S-box at position 0 only, left-multiply the matrix. -/
def partRoundSpec (t : ℕ) (sbox : F → F) (M : Matrix (Fin t) (Fin t) F)
    (ch : Fin t → F) (s : Fin t → F) : Fin t → F :=
  Matrix.mulVec M (sboxAt0Vec t sbox (fun i => s i + ch i))

/-- Apply rounds `a, a+1, …, a+n-1` in ascending order. -/
def foldRounds (t : ℕ) (f : ℕ → (Fin t → F) → Fin t → F) (a : ℕ) :
    ℕ → (Fin t → F) → Fin t → F
  | 0, s => s
  | n + 1, s => f (a + n) (foldRounds t f a n s)

/-- The claimed round structure of the plain permutation. -/
def plain_spec_run (t : ℕ) (sbox : F → F) (M : Matrix (Fin t) (Fin t) F)
    (rc : ℕ → F) (hf rP : ℕ) (v : Fin t → F) : Fin t → F :=
  foldRounds t (fun r => fullRoundSpec t sbox M (rcChunk t rc r)) (hf + rP) hf
    (foldRounds t (fun r => partRoundSpec t sbox M (rcChunk t rc r)) hf rP
      (foldRounds t (fun r => fullRoundSpec t sbox M (rcChunk t rc r)) 0 hf v))

lemma full_round_iter_eq (t : ℕ) (sbox : F → F) (M : Matrix (Fin t) (Fin t) F)
    (rc : ℕ → F) (n r0 : ℕ) (v : Fin t → F) :
    (full_round_plain t sbox M rc)^[n] (v, r0 * t) =
      (foldRounds t (fun r => fullRoundSpec t sbox M (rcChunk t rc r)) r0 n v,
        (r0 + n) * t) := by
  induction n with
  | zero => simp [foldRounds]
  | succ n ih =>
    rw [Function.iterate_succ_apply', ih]
    unfold full_round_plain
    simp only [foldRounds, Prod.mk.injEq]
    refine ⟨?_, by ring⟩
    rw [posLoop_all]
    rfl

lemma part_round_iter_eq (t : ℕ) (sbox : F → F) (M : Matrix (Fin t) (Fin t) F)
    (rc : ℕ → F) (n r0 : ℕ) (v : Fin t → F) :
    (part_round_plain t sbox M rc)^[n] (v, r0 * t) =
      (foldRounds t (fun r => partRoundSpec t sbox M (rcChunk t rc r)) r0 n v,
        (r0 + n) * t) := by
  induction n with
  | zero => simp [foldRounds]
  | succ n ih =>
    rw [Function.iterate_succ_apply', ih]
    unfold part_round_plain
    simp only [foldRounds, Prod.mk.injEq]
    refine ⟨?_, by ring⟩
    rw [posLoop_all]
    rfl

lemma plain_permute_eq_spec (t : ℕ) (sbox : F → F) (M : Matrix (Fin t) (Fin t) F)
    (rc : ℕ → F) (hf rP : ℕ) (v : Fin t → F) :
    plain_permute t sbox M rc hf rP v = plain_spec_run t sbox M rc hf rP v := by
  unfold plain_permute plain_spec_run
  have h0 : (0 : ℕ) = 0 * t := by ring
  rw [h0, full_round_iter_eq, part_round_iter_eq, full_round_iter_eq]
  simp

end Engine

lemma getD_map_cast (p : ℕ) (xs : List ℕ) (i : ℕ) :
    (xs.map (fun x : ℕ => (x : ZMod p))).getD i 0 =
      ((xs.getD i 0 : ℕ) : ZMod p) := by
  have := List.getD_map (l := xs) (n := i) (d := 0) (fun x : ℕ => (x : ZMod p))
  simpa using this

/-- Claim C3: for every plain instance and every input of length `t` (with
entries in the field and `t ≥ 2` so that the final `state[1]` exists),
`run_hash` performs `half_full_round` full rounds, then `partial_round`
partial rounds, then `half_full_round` full rounds, where a full round adds
the next round constant and applies the S-box `x ^ alpha` at each of the `t`
positions in cursor order and then left-multiplies the MDS matrix, and a
partial round consumes `t` round constants, applies the S-box only at
position 0, and left-multiplies the matrix; the result is element 1 of the
final state. -/
theorem plain_run_hash_round_structure (p t alpha : ℕ)
    (M : Matrix (Fin t) (Fin t) (ZMod p)) (rcl : List (ZMod p)) (hf rP : ℕ)
    (input : List ℕ) (hlen : input.length = t) (hvals : ∀ x ∈ input, x < p)
    (h1 : 1 < t) :
    run_hash_plain p t (s_box alpha) M rcl hf rP input =
      (input, PRes.ok (plain_spec_run t (s_box alpha) M (fun k => rcl.getD k 0)
        hf rP (fun i => ((input.getD i.val 0 : ℕ) : ZMod p)) ⟨1, h1⟩)) := by
  have hpad : plain_pad t input = input := by
    unfold plain_pad
    rw [hlen]
    simp
  have hall : input.all (fun x => decide (x < p)) = true := by
    rw [List.all_eq_true]
    intro x hx
    exact decide_eq_true (hvals x hx)
  unfold run_hash_plain toFieldVec
  simp only [hpad, hall, if_true, hlen, ite_true, dif_pos h1]
  rw [plain_permute_eq_spec]
  have hv : (fun i : Fin t => (input.map (fun x : ℕ => (x : ZMod p))).getD i.val 0) =
      fun i : Fin t => ((input.getD i.val 0 : ℕ) : ZMod p) := by
    funext i
    exact getD_map_cast p input i.val
  rw [hv]

set_option maxRecDepth 8000 in
/-- Witness for `calc_round_constants_count_and_range` at the concrete
parameters `t = 1`, `full_round = 1`, `partial_round = 0`, `p = 3`,
`alpha = 3`, `prime_bit_len = 2` (fuel 20). -/
theorem calc_round_constants_count_and_range_witness :
    ([0] : List ℕ).length = 1 * (1 + 0) ∧ ∀ x ∈ ([0] : List ℕ), x < 3 :=
  calc_round_constants_count_and_range 20 1 1 0 3 3 2 [0] (by decide)

/-- Claim C10: plain `run_hash` mutates its caller's list: an input shorter
than `t` is extended in place with zeros to length exactly `t`
(`input_vec.extend([0] * (t - len(input_vec)))`), while an input of length
`≥ t` is left unchanged.  The first component of `run_hash_plain` is the
final value of the caller's list object. -/
theorem plain_run_hash_mutates_input (p t : ℕ) (sbox : ZMod p → ZMod p)
    (M : Matrix (Fin t) (Fin t) (ZMod p)) (rcl : List (ZMod p)) (hf rP : ℕ)
    (input : List ℕ) :
    (input.length < t →
      (run_hash_plain p t sbox M rcl hf rP input).1 =
          input ++ List.replicate (t - input.length) 0 ∧
        (run_hash_plain p t sbox M rcl hf rP input).1.length = t) ∧
    (t ≤ input.length → (run_hash_plain p t sbox M rcl hf rP input).1 = input) := by
  constructor
  · intro h
    constructor
    · simp [run_hash_plain, plain_pad, h]
    · simp only [run_hash_plain, plain_pad, if_pos h]
      simp only [List.length_append, List.length_replicate]
      omega
  · intro h
    simp [run_hash_plain, plain_pad, Nat.not_lt.mpr h]

/-- Witness for `plain_run_hash_mutates_input`: `t = 2`, input `[7]` is
extended to `[7, 0]`. -/
theorem plain_run_hash_mutates_input_witness :
    (run_hash_plain 5 2 (s_box 3) 1 [] 1 1 [7]).1 = [7] ++ List.replicate (2 - 1) 0 ∧
      (run_hash_plain 5 2 (s_box 3) 1 [] 1 1 [7]).1.length = 2 :=
  (plain_run_hash_mutates_input 5 2 (s_box 3) 1 [] 1 1 [7]).1 (by decide)

/-! ## The optimized variant (`hash.py` `OptimizedPoseidon`,
`round_constants.py` `optimized_rc` / `optimized_matrix`) -/

/-- `OptimizedPoseidon.domain_separation`: prepend the mode's domain tag.
Merkle-tree mode: tag `2 ** len(input) - 1`, no padding.  Constant-input-length
mode: tag `len(input) * 2 ** 64` and right-pad the input with zeros up to
`input_rate` elements (`[0] * (input_rate - lv)`, empty when `lv ≥ input_rate`). -/
def domain_separation (mode : HashType) (input_rate : ℕ) (input : List ℕ) : List ℕ :=
  match mode with
  | HashType.merkleTree => (2 ^ input.length - 1) :: input
  | HashType.constInputLen =>
      (input.length * 2 ^ 64) :: (input ++ List.replicate (input_rate - input.length) 0)

section Optimized

variable {F : Type} [CommRing F]

/-- `element ** alpha` at position 0 of a vector, defaulting to `0` for an
empty state (which never occurs: `t ≥ 1` in every instance). -/
def at0 (t : ℕ) (v : Fin t → F) : F :=
  if h : 0 < t then v ⟨0, h⟩ else 0

/-- The partial-round back-substitution accumulator of `optimized_rc`
(`acc` in the source): `acc₀ = rc[final_round]`, and one step maps `acc` to
`acc @ m_inv` with entry 0 zeroed, plus `rc[final_round - r - 1]`.  `fr` is
`final_round = half_full_round + partial_round`. -/
def optAcc (t : ℕ) (Minv : Matrix (Fin t) (Fin t) F) (rcC : ℕ → Fin t → F)
    (fr : ℕ) : ℕ → Fin t → F
  | 0 => rcC fr
  | j + 1 =>
    let a := Matrix.vecMul (optAcc t Minv rcC fr j) Minv
    (fun i => if i.val = 0 then 0 else a i) + rcC (fr - j - 1)

/-- The partial-round scalar constant collected at back-substitution step `j`:
entry 0 of `acc_j @ m_inv` (read off before that entry is zeroed). -/
def optPartCst (t : ℕ) (Minv : Matrix (Fin t) (Fin t) F) (rcC : ℕ → Fin t → F)
    (fr j : ℕ) : F :=
  at0 t (Matrix.vecMul (optAcc t Minv rcC fr j) Minv)

/-- `optimized_rc`: the flat optimized round-constant table, emitted in the
order of the source: the pre-round chunk `rc[0]` unchanged; chunks
`rc[1..half_full_round-1]` right-multiplied by `m_inv`; the final
accumulator times `m_inv` (the boundary chunk); the collected partial
constants in reverse order; chunks `rc[start+1..start+half_full_round-1]`
(`start = half_full_round + partial_round`) times `m_inv`.
`rcC r` is the `r`-th chunk of `t` plain constants (`np.array_split` of the
flat table), and `Minv` is the library-computed `np.linalg.inv(mds_matrix)`. -/
def optimized_rc (t : ℕ) (rcC : ℕ → Fin t → F) (hf rP : ℕ)
    (Minv : Matrix (Fin t) (Fin t) F) : List F :=
  List.ofFn (rcC 0)
    ++ List.flatten ((List.range (hf - 1)).map fun r =>
        List.ofFn (Matrix.vecMul (rcC (r + 1)) Minv))
    ++ List.ofFn (Matrix.vecMul (optAcc t Minv rcC (hf + rP) rP) Minv)
    ++ ((List.range rP).map (optPartCst t Minv rcC (hf + rP))).reverse
    ++ List.flatten ((List.range (hf - 1)).map fun r =>
        List.ofFn (Matrix.vecMul (rcC (hf + rP + r + 1)) Minv))

/-- `m_1` of `sparse_factorize`: `m` with its first row and first column
zeroed and a 1 at `(0,0)`. -/
def sparse_m1 (t : ℕ) (m : Matrix (Fin t) (Fin t) F) : Matrix (Fin t) (Fin t) F :=
  Matrix.of fun i j =>
    if i.val = 0 then (if j.val = 0 then 1 else 0)
    else (if j.val = 0 then 0 else m i j)

/-- `m_2` of `sparse_factorize`: the identity except that row 0 is `m`'s row 0
and column 0 below the diagonal is `w_cap = inv(m[1:,1:]) @ m[1:,0]` (the
inner inverse is an external library call, so `w_cap` is a parameter; the
source's own `assert m == m_1 @ m_2` is carried as a hypothesis wherever the
factorization is used). -/
def sparse_m2 (t : ℕ) (m : Matrix (Fin t) (Fin t) F) (w_cap : Fin t → F) :
    Matrix (Fin t) (Fin t) F :=
  Matrix.of fun i j =>
    if i.val = 0 then m i j
    else if j.val = 0 then w_cap i
    else if i = j then 1 else 0

/-- The matrix iterated by `optimized_matrix`: `m₀ = mds_matrix` and
`m_{k+1} = mds_matrix @ m_1(m_k)`. -/
def optMseq (t : ℕ) (M : Matrix (Fin t) (Fin t) F) : ℕ → Matrix (Fin t) (Fin t) F
  | 0 => M
  | k + 1 => M * sparse_m1 t (optMseq t M k)

/-- The pre-matrix returned by `optimized_matrix`: the final iterate. -/
def optimized_matrix_pre (t : ℕ) (M : Matrix (Fin t) (Fin t) F) (rP : ℕ) :
    Matrix (Fin t) (Fin t) F :=
  optMseq t M rP

/-- The sparse-matrix list returned by `optimized_matrix`: `m_2(m_k)` for
`k = 0, …, partial_round - 1`, reversed.  `wc k` is the library-computed
`w_cap` of iteration `k`. -/
def optimized_matrix_sparse (t : ℕ) (M : Matrix (Fin t) (Fin t) F) (rP : ℕ)
    (wc : ℕ → Fin t → F) : List (Matrix (Fin t) (Fin t) F) :=
  ((List.range rP).map fun k => sparse_m2 t (optMseq t M k) (wc k)).reverse

/-- One iteration of `OptimizedPoseidon.full_rounds`: apply the S-box then add
the next constant (cursor order) at each position, then right-multiply the
MDS matrix (`np.dot(self.state, self.mds_matrix)`). -/
def full_round_opt (t : ℕ) (sbox : F → F) (M : Matrix (Fin t) (Fin t) F)
    (orc : ℕ → F) (sc : (Fin t → F) × ℕ) : (Fin t → F) × ℕ :=
  (Matrix.vecMul (posLoop t (fun v n => sbox v + orc n) sc.2 sc.1 t) M, sc.2 + t)

/-- One iteration of `OptimizedPoseidon.partial_rounds`: S-box and constant
add at position 0 only (one cursor step), then right-multiply the given
sparse matrix. -/
def part_round_opt (t : ℕ) (sbox : F → F) (orc : ℕ → F)
    (mat : Matrix (Fin t) (Fin t) F) (sc : (Fin t → F) × ℕ) : (Fin t → F) × ℕ :=
  (Matrix.vecMul (fun i => if i.val = 0 then sbox (sc.1 i) + orc sc.2 else sc.1 i) mat,
    sc.2 + 1)

/-- `OptimizedPoseidon.partial_rounds`: round `r` uses `spase_matrices[r]`
(out-of-range indexing cannot occur: the list has `partial_round` entries). -/
def part_rounds_opt (t : ℕ) (sbox : F → F) (orc : ℕ → F)
    (sparse : List (Matrix (Fin t) (Fin t) F)) (rP : ℕ)
    (sc : (Fin t → F) × ℕ) : (Fin t → F) × ℕ :=
  (List.range rP).foldl (fun sc0 r => part_round_opt t sbox orc (sparse.getD r 1) sc0) sc

/-- The optimized permutation on a (domain-separated, converted) state of
length `t`, following `OptimizedPoseidon.run_hash` after its input checks:
add the pre-round constants; `half_full_round - 1` optimized full rounds; one
S-box+constant pass over all positions followed by the pre-matrix
(`np.matmul(self.state, self.pre_matrix)`); `partial_round` optimized partial
rounds; `half_full_round - 1` optimized full rounds; a final S-box pass (no
constants) followed by the MDS matrix. -/
def opt_core (t : ℕ) (sbox : F → F) (M pre : Matrix (Fin t) (Fin t) F)
    (sparse : List (Matrix (Fin t) (Fin t) F)) (orc : ℕ → F) (hf rP : ℕ)
    (v : Fin t → F) : Fin t → F :=
  let a := (posLoop t (fun w n => w + orc n) 0 v t, t)
  let b := (full_round_opt t sbox M orc)^[hf - 1] a
  let c := (Matrix.vecMul (posLoop t (fun w n => sbox w + orc n) b.2 b.1 t) pre, b.2 + t)
  let d := part_rounds_opt t sbox orc sparse rP c
  let e := (full_round_opt t sbox M orc)^[hf - 1] d
  Matrix.vecMul (posLoop t (fun w _ => sbox w) e.2 e.1 t) M

end Optimized

/-- `OptimizedPoseidon.run_hash`.  An input of length `≥ t` fails immediately
with `InvalidInputLengthError`; otherwise the domain-separated input is
converted (`galois` rejects entries outside `[0, p)`), and the permutation
needs the domain-separated length to be exactly `t`: a shorter state hits an
`IndexError` in the pre-round constant loop, a longer one a shape `ValueError`
at the pre-matrix product; `state[1]` at the end needs `t ≥ 2`. -/
def run_hash_opt (p t input_rate : ℕ) (mode : HashType) (sbox : ZMod p → ZMod p)
    (M pre : Matrix (Fin t) (Fin t) (ZMod p))
    (sparse : List (Matrix (Fin t) (Fin t) (ZMod p))) (orcl : List (ZMod p))
    (hf rP : ℕ) (input : List ℕ) : PRes (ZMod p) :=
  if t ≤ input.length then .err .invalidInputLength
  else
    let st := domain_separation mode input_rate input
    match toFieldVec p st with
    | none => .err .conversion
    | some fs =>
      if st.length = t then
        let out := opt_core t sbox M pre sparse (fun k => orcl.getD k 0) hf rP
          (fun i => fs.getD i.val 0)
        if h1 : 1 < t then .ok (out ⟨1, h1⟩) else .err .indexError
      else .err (if st.length < t then PErr.indexError else PErr.shapeError)

lemma length_flatten_ofFn {F : Type} (t n : ℕ) (g : ℕ → Fin t → F) :
    (List.flatten ((List.range n).map fun r => List.ofFn (g r))).length = n * t := by
  induction n with
  | zero => simp
  | succ n ih =>
    rw [List.range_succ]
    simp only [List.map_append, List.map_cons, List.map_nil, List.flatten_append,
      List.flatten_cons, List.flatten_nil, List.length_append, List.length_ofFn,
      List.append_nil, ih]
    ring

/-- Claim C5 counterexample: at `t = 2`, `half_full_round = 1`,
`partial_round = 1`, the optimized round-constant table has
`t * (half_full_round * 2) + partial_round = 5` entries, not the claimed
`t * (half_full_round * 2 - 1) + partial_round + t * 2 = 7`. -/
theorem optimized_rc_length_counterexample :
    (optimized_rc 2 (fun _ _ => (0 : ZMod 5)) 1 1 1).length ≠
      2 * (1 * 2 - 1) + 1 + 2 * 2 := by decide

/-- Claim C5 (amended): for `half_full_round ≥ 1` the optimized table
produced by `optimized_rc` has exactly `t * (half_full_round * 2) +
partial_round` field elements (the count the optimized engine consumes),
while the plain table produced by `calc_round_constants` has exactly
`t * (full_round + partial_round)` elements. -/
theorem optimized_rc_length {F : Type} [CommRing F] (t : ℕ)
    (rcC : ℕ → Fin t → F) (hf rP : ℕ) (Minv : Matrix (Fin t) (Fin t) F)
    (hhf : 1 ≤ hf) (fuel rF p : ℕ) (alpha : ℤ) (pbl : ℕ) (l : List ℕ)
    (hl : calc_round_constants fuel t rF rP p alpha pbl = some l) :
    (optimized_rc t rcC hf rP Minv).length = t * (hf * 2) + rP ∧
      l.length = t * (rF + rP) := by
  constructor
  · obtain ⟨k, rfl⟩ : ∃ k, hf = k + 1 := ⟨hf - 1, by omega⟩
    unfold optimized_rc
    simp only [List.length_append, List.length_ofFn, List.length_reverse,
      List.length_map, List.length_range, length_flatten_ofFn,
      Nat.add_sub_cancel]
    ring
  · exact (calc_round_constants_count_and_range fuel t rF rP p alpha pbl l hl).1

set_option maxRecDepth 8000 in
/-- Witness for `optimized_rc_length` at `t = 1`, `half_full_round = 1`,
`partial_round = 0`, with the plain table from the concrete Grain run of the
C2 witness. -/
theorem optimized_rc_length_witness :
    (optimized_rc 1 (fun _ _ => (0 : ZMod 5)) 1 0 1).length = 1 * (1 * 2) + 0 ∧
      ([0] : List ℕ).length = 1 * (1 + 0) :=
  optimized_rc_length 1 (fun _ _ => (0 : ZMod 5)) 1 0 1 (by decide) 20 1 3 3 2 [0]
    (by decide)

/-! ## Construction-time validation of explicit tables (`Poseidon.__init__`,
`get_field_matrix_from_hex_matrix`) -/

/-- The inner loop of `get_field_matrix_from_hex_matrix` over one row:
`mds_matrix[i][j]` for `j = 0, …, n-1` (an `IndexError` when the row is
shorter than `n`; a `galois` `ValueError` when an entry is `≥ p`). -/
def convCells (p : ℕ) (row : List ℕ) : ℕ → PRes (List (ZMod p))
  | 0 => .ok []
  | j + 1 =>
    match convCells p row j with
    | .err e => .err e
    | .ok acc =>
      if j < row.length then
        if row.getD j 0 < p then .ok (acc ++ [((row.getD j 0 : ℕ) : ZMod p)])
        else .err .conversion
      else .err .indexError

/-- The outer loop of `get_field_matrix_from_hex_matrix` over rows
`i = 0, …, n-1`. -/
def convRows (p n : ℕ) (rows : List (List ℕ)) : ℕ → PRes (List (List (ZMod p)))
  | 0 => .ok []
  | i + 1 =>
    match convRows p n rows i with
    | .err e => .err e
    | .ok acc =>
      match convCells p (rows.getD i []) n with
      | .err e => .err e
      | .ok r => .ok (acc ++ [r])

/-- `get_field_matrix_from_hex_matrix`: convert an `n × n` slice of the
supplied matrix, where `n = len(mds_matrix)` (hex parsing of the entries is
collapsed into the `ℕ` values). -/
def get_field_matrix_from_hex_matrix (p : ℕ) (mds : List (List ℕ)) :
    PRes (List (List (ZMod p))) :=
  convRows p mds.length mds mds.length

/-- The explicit-tables path of `Poseidon.__init__`: the MDS size check
`if (len(mds_matrix) != t) & (len(mds_matrix[0]) != t)` - Python `&`
evaluates both operands, so an empty matrix raises `IndexError` at
`mds_matrix[0]`, and the `ValueError` fires only when BOTH the row count and
the first row's length differ from `t` - then the matrix conversion, then
the round-constant count check `len(rc_list) != t * (full_round +
partial_round)`, then the constant conversion. -/
def init_explicit_tables (p t rF rP : ℕ) (mds : List (List ℕ)) (rcl : List ℕ) :
    PRes (List (List (ZMod p)) × List (ZMod p)) :=
  match mds with
  | [] => .err .indexError
  | r0 :: _ =>
    if mds.length ≠ t ∧ r0.length ≠ t then .err .invalidParameter
    else
      match get_field_matrix_from_hex_matrix p mds with
      | .err e => .err e
      | .ok m =>
        if rcl.length ≠ t * (rF + rP) then .err .invalidParameter
        else if rcl.all (fun x => decide (x < p)) then
          .ok (m, rcl.map (fun x : ℕ => (x : ZMod p)))
        else .err .conversion

/-- Claim C6 (code bug): a supplied 2 × 3 MDS matrix at `t = 2` is accepted by
the construction (and silently truncated to its first two columns), because
the size check raises only when *both* `len(mds_matrix) != t` and
`len(mds_matrix[0]) != t`; the claim (and the evident intent of the
`'Invalid size of MDS matrix'` check) requires rejection whenever either
dimension differs from `t`. -/
theorem init_explicit_tables_size_bug :
    init_explicit_tables 11 2 2 1 [[1, 2, 3], [4, 5, 6]] [1, 2, 3, 4, 5, 6] =
      PRes.ok ([[(1 : ZMod 11), 2], [4, 5]],
        [(1 : ZMod 11), 2, 3, 4, 5, 6]) := by decide

lemma toFieldVec_eq_some (p : ℕ) (xs : List ℕ) (h : ∀ x ∈ xs, x < p) :
    toFieldVec p xs = some (xs.map fun x : ℕ => (x : ZMod p)) := by
  unfold toFieldVec
  rw [if_pos (List.all_eq_true.mpr fun x hx => decide_eq_true (h x hx))]

lemma toFieldVec_eq_none (p : ℕ) (xs : List ℕ) (h : ¬ ∀ x ∈ xs, x < p) :
    toFieldVec p xs = none := by
  unfold toFieldVec
  rw [if_neg]
  intro hall
  exact h fun x hx => of_decide_eq_true (List.all_eq_true.mp hall x hx)

/-- Claim C7 counterexample: an input of length `0 < t = 3` in merkle-tree
mode does *not* proceed without raising: its domain-separated vector
`[2^0 - 1] = [0]` has length `1 < t`, so the pre-round constant loop hits an
out-of-range `state[i]` access (`IndexError`), even though no
`InvalidInputLengthError` is raised. -/
theorem opt_run_hash_raises_on_short_input :
    ([] : List ℕ).length < 3 ∧
      run_hash_opt 11 3 2 HashType.merkleTree (s_box 3) 1 1 [] [] 4 1 [] =
        PRes.err PErr.indexError := by
  constructor
  · decide
  · rfl

/-- Claim C7 (amended): `OptimizedPoseidon.run_hash` fails with
`InvalidInputLengthError` exactly when the input length is `≥ t`.  For an
input of length `< t` it prepends the mode's domain tag (merkle-tree:
`2^len - 1`; constant-input-length: `len * 2^64` after zero-padding the input
up to `input_rate` elements), and then completes without raising iff the
domain-separated vector has length exactly `t`, all of its entries are field
representable (`< p`), and `t ≥ 2` (otherwise an index/shape/conversion
error occurs instead). -/
theorem opt_run_hash_length_behavior (p t input_rate : ℕ) (mode : HashType)
    (sbox : ZMod p → ZMod p) (M pre : Matrix (Fin t) (Fin t) (ZMod p))
    (sparse : List (Matrix (Fin t) (Fin t) (ZMod p))) (orcl : List (ZMod p))
    (hf rP : ℕ) (input : List ℕ) :
    (run_hash_opt p t input_rate mode sbox M pre sparse orcl hf rP input =
        PRes.err PErr.invalidInputLength ↔ t ≤ input.length) ∧
    (input.length < t →
      (domain_separation mode input_rate input =
        (match mode with
         | HashType.merkleTree => (2 ^ input.length - 1) :: input
         | HashType.constInputLen =>
             (input.length * 2 ^ 64) ::
               (input ++ List.replicate (input_rate - input.length) 0))) ∧
      ((∃ y, run_hash_opt p t input_rate mode sbox M pre sparse orcl hf rP input =
          PRes.ok y) ↔
        ((domain_separation mode input_rate input).length = t ∧
          (∀ x ∈ domain_separation mode input_rate input, x < p) ∧ 1 < t))) := by
  by_cases hle : t ≤ input.length
  · refine ⟨⟨fun _ => hle, fun _ => by simp [run_hash_opt, hle]⟩, fun hlt => absurd hle (by omega)⟩
  · constructor
    · simp only [run_hash_opt, if_neg hle]
      constructor
      · intro h
        exfalso
        by_cases hv : ∀ x ∈ domain_separation mode input_rate input, x < p
        · rw [toFieldVec_eq_some p _ hv] at h
          by_cases hlen : (domain_separation mode input_rate input).length = t
          · simp only [hlen, if_pos rfl] at h
            by_cases h1 : 1 < t
            · rw [dif_pos h1] at h; exact PRes.noConfusion h
            · rw [dif_neg h1] at h
              exact PErr.noConfusion (PRes.err.inj h)
          · simp only [hlen, if_neg hlen, ite_true, ite_false] at h
            rcases lt_or_ge (domain_separation mode input_rate input).length t with hc | hc
            · rw [if_pos hc] at h
              exact PErr.noConfusion (PRes.err.inj h)
            · rw [if_neg (by omega)] at h
              exact PErr.noConfusion (PRes.err.inj h)
        · rw [toFieldVec_eq_none p _ hv] at h
          exact PErr.noConfusion (PRes.err.inj h)
      · intro h; omega
    · intro _
      refine ⟨by cases mode <;> rfl, ?_⟩
      constructor
      · rintro ⟨y, hy⟩
        simp only [run_hash_opt, if_neg hle] at hy
        by_cases hv : ∀ x ∈ domain_separation mode input_rate input, x < p
        · rw [toFieldVec_eq_some p _ hv] at hy
          by_cases hlen : (domain_separation mode input_rate input).length = t
          · simp only [hlen, if_pos rfl] at hy
            by_cases h1 : 1 < t
            · exact ⟨hlen, hv, h1⟩
            · rw [dif_neg h1] at hy; exact PRes.noConfusion hy
          · simp only [if_neg hlen] at hy
            exact PRes.noConfusion hy
        · rw [toFieldVec_eq_none p _ hv] at hy
          exact PRes.noConfusion hy
      · rintro ⟨hlen, hv, h1⟩
        simp only [run_hash_opt, if_neg hle, toFieldVec_eq_some p _ hv, hlen,
          ite_true, dif_pos h1]
        exact ⟨_, rfl⟩

/-- Witness for `opt_run_hash_length_behavior`: merkle-tree mode, `t = 2`,
input `[5]` over `ZMod 11` (domain-separated to `[1, 5]`, which completes). -/
theorem opt_run_hash_length_behavior_witness :
    (domain_separation HashType.merkleTree 1 [5] =
        (2 ^ [5].length - 1) :: [5]) ∧
      ((∃ y, run_hash_opt 11 2 1 HashType.merkleTree (s_box 3) 1 1 [] [] 1 1 [5] =
          PRes.ok y) ↔
        ((domain_separation HashType.merkleTree 1 [5]).length = 2 ∧
          (∀ x ∈ domain_separation HashType.merkleTree 1 [5], x < 11) ∧ 1 < 2)) := by
  have h := (opt_run_hash_length_behavior 11 2 1 HashType.merkleTree (s_box 3)
    1 1 [] [] 1 1 [5]).2 (by decide)
  exact h

/-! ## Purity of `run_hash` across calls -/

/-- Plain `run_hash` viewed from the instance: the transient per-call fields
`self.state` and `self.rc_counter` are passed in but the very first actions of
the call overwrite both (`self.state = self.field_p(input_vec)`,
`self.rc_counter = 0`), so the result cannot depend on them. -/
def run_hash_plain_from (p t : ℕ) (sbox : ZMod p → ZMod p)
    (M : Matrix (Fin t) (Fin t) (ZMod p)) (rcl : List (ZMod p)) (hf rP : ℕ)
    (_state0 : Fin t → ZMod p) (_counter0 : ℕ) (input : List ℕ) :
    List ℕ × PRes (ZMod p) :=
  run_hash_plain p t sbox M rcl hf rP input

/-- Optimized `run_hash` viewed from the instance, likewise. -/
def run_hash_opt_from (p t input_rate : ℕ) (mode : HashType)
    (sbox : ZMod p → ZMod p) (M pre : Matrix (Fin t) (Fin t) (ZMod p))
    (sparse : List (Matrix (Fin t) (Fin t) (ZMod p))) (orcl : List (ZMod p))
    (hf rP : ℕ) (_state0 : Fin t → ZMod p) (_counter0 : ℕ) (input : List ℕ) :
    PRes (ZMod p) :=
  run_hash_opt p t input_rate mode sbox M pre sparse orcl hf rP input

lemma plain_pad_idem (t : ℕ) (input : List ℕ) :
    plain_pad t (plain_pad t input) = plain_pad t input := by
  unfold plain_pad
  by_cases h : input.length < t
  · rw [if_pos h, if_neg]
    simp only [List.length_append, List.length_replicate]
    omega
  · rw [if_neg h, if_neg h]

/-- Claim C8: for a fixed constructed instance, `run_hash` is deterministic
across calls.  Whatever transient state (`self.state`, `self.rc_counter`) a
previous call left behind, the next call on the same input value returns the
same output, for both the plain and optimized variants; and the plain
variant returns the same output when re-invoked on the list object it mutated
(the in-place padding is idempotent). -/
theorem run_hash_deterministic (p t input_rate : ℕ) (mode : HashType)
    (sbox : ZMod p → ZMod p) (M pre : Matrix (Fin t) (Fin t) (ZMod p))
    (sparse : List (Matrix (Fin t) (Fin t) (ZMod p))) (rcl orcl : List (ZMod p))
    (hf rP : ℕ) (s1 s2 : Fin t → ZMod p) (c1 c2 : ℕ) (input : List ℕ) :
    (run_hash_plain_from p t sbox M rcl hf rP s1 c1 input =
        run_hash_plain_from p t sbox M rcl hf rP s2 c2 input) ∧
    (run_hash_opt_from p t input_rate mode sbox M pre sparse orcl hf rP s1 c1 input =
        run_hash_opt_from p t input_rate mode sbox M pre sparse orcl hf rP s2 c2 input) ∧
    ((run_hash_plain_from p t sbox M rcl hf rP s2 c2
        (run_hash_plain_from p t sbox M rcl hf rP s1 c1 input).1).2 =
      (run_hash_plain_from p t sbox M rcl hf rP s1 c1 input).2) := by
  refine ⟨rfl, rfl, ?_⟩
  show (run_hash_plain p t sbox M rcl hf rP (plain_pad t input)).2 =
    (run_hash_plain p t sbox M rcl hf rP input).2
  unfold run_hash_plain
  rw [plain_pad_idem]

/-- Witness for `plain_run_hash_round_structure`: `ZMod 11`, `t = 2`,
`alpha = 3`, six round constants, one full / one partial / one full round,
input `[3, 4]`. -/
theorem plain_run_hash_round_structure_witness :
    run_hash_plain 11 2 (s_box 3) (Matrix.of ![![1, 2], ![3, 4]])
        [1, 2, 3, 4, 5, 6] 1 1 [3, 4] =
      ([3, 4], PRes.ok (plain_spec_run 2 (s_box 3) (Matrix.of ![![1, 2], ![3, 4]])
        (fun k => ([1, 2, 3, 4, 5, 6] : List (ZMod 11)).getD k 0) 1 1
        (fun i => (([3, 4].getD i.val 0 : ℕ) : ZMod 11)) ⟨1, by decide⟩)) :=
  plain_run_hash_round_structure 11 2 3 (Matrix.of ![![1, 2], ![3, 4]])
    [1, 2, 3, 4, 5, 6] 1 1 [3, 4] (by decide) (by decide) (by decide)

/-! ## Equivalence of the optimized and plain permutations

The plain engine multiplies the MDS matrix on the left of the state
(`np.matmul(M, state)`), the optimized engine on the right
(`np.dot(state, M)`); the two agree when the matrix is symmetric (the
generated Cauchy matrix `1 / (x_i + y_j)` with `x_i = i`, `y_j = t + j` is
symmetric), and the equivalence below is proved under that hypothesis - a
counterexample shows it fails for a non-symmetric (invertible) matrix.  The
`np.linalg.inv` results are parameters constrained by their defining
equations, and the source's `assert m == m_1 @ m_2` is a hypothesis. -/

section C1core

variable {F : Type} [CommRing F]

/-- A plain full round in row-vector form (equal to `fullRoundSpec` for a
symmetric matrix). -/
def fullRoundRow (t : ℕ) (sbox : F → F) (M : Matrix (Fin t) (Fin t) F)
    (ch s : Fin t → F) : Fin t → F :=
  Matrix.vecMul (fun i => sbox (s i + ch i)) M

/-- A plain partial round in row-vector form. -/
def partRoundRow (t : ℕ) (sbox : F → F) (M : Matrix (Fin t) (Fin t) F)
    (ch s : Fin t → F) : Fin t → F :=
  Matrix.vecMul (sboxAt0Vec t sbox (fun i => s i + ch i)) M

/-- An optimized full round with its constant block made explicit. -/
def fullRoundOptC (t : ℕ) (sbox : F → F) (M : Matrix (Fin t) (Fin t) F)
    (ch s : Fin t → F) : Fin t → F :=
  Matrix.vecMul (fun i => sbox (s i) + ch i) M

/-- An optimized partial round with its scalar constant and sparse matrix
made explicit. -/
def partRoundOptC (t : ℕ) (sbox : F → F) (q : F) (mat : Matrix (Fin t) (Fin t) F)
    (u : Fin t → F) : Fin t → F :=
  Matrix.vecMul (fun i => if i.val = 0 then sbox (u i) + q else u i) mat

lemma mulVec_eq_vecMul_of_symm (t : ℕ) (M : Matrix (Fin t) (Fin t) F)
    (hsym : M.transpose = M) (x : Fin t → F) :
    Matrix.mulVec M x = Matrix.vecMul x M := by
  conv_rhs => rw [← hsym]
  rw [Matrix.vecMul_transpose]

lemma fullRoundSpec_eq_row (t : ℕ) (sbox : F → F) (M : Matrix (Fin t) (Fin t) F)
    (hsym : M.transpose = M) : fullRoundSpec t sbox M = fullRoundRow t sbox M := by
  funext ch s
  unfold fullRoundSpec fullRoundRow
  rw [mulVec_eq_vecMul_of_symm t M hsym]

lemma partRoundSpec_eq_row (t : ℕ) (sbox : F → F) (M : Matrix (Fin t) (Fin t) F)
    (hsym : M.transpose = M) : partRoundSpec t sbox M = partRoundRow t sbox M := by
  funext ch s
  unfold partRoundSpec partRoundRow
  rw [mulVec_eq_vecMul_of_symm t M hsym]

omit [CommRing F] in
lemma foldRounds_congr (t : ℕ) (f g : ℕ → (Fin t → F) → Fin t → F) (a n : ℕ)
    (h : ∀ r, a ≤ r → r < a + n → ∀ s, f r s = g r s) (s : Fin t → F) :
    foldRounds t f a n s = foldRounds t g a n s := by
  induction n with
  | zero => rfl
  | succ n ih =>
    simp only [foldRounds]
    rw [ih fun r hr1 hr2 => h r hr1 (by omega)]
    exact h (a + n) (by omega) (by omega) _

omit [CommRing F] in
lemma foldRounds_shift (t : ℕ) (g : ℕ → (Fin t → F) → Fin t → F) (b : ℕ) :
    ∀ (n : ℕ) (s : Fin t → F),
      foldRounds t (fun r => g (b + r)) 0 n s = foldRounds t g b n s := by
  intro n
  induction n with
  | zero => intro s; rfl
  | succ n ih =>
    intro s
    simp only [foldRounds, Nat.zero_add]
    rw [ih]

lemma vecMul_m1_at0 (t : ℕ) (ht : 0 < t) (m : Matrix (Fin t) (Fin t) F)
    (w : Fin t → F) :
    Matrix.vecMul w (sparse_m1 t m) ⟨0, ht⟩ = w ⟨0, ht⟩ := by
  simp only [Matrix.vecMul, Matrix.dotProduct]
  rw [Finset.sum_eq_single (⟨0, ht⟩ : Fin t)]
  · simp [sparse_m1]
  · intro b _ hb
    have hbv : b.val ≠ 0 := fun hv => hb (Fin.ext hv)
    simp [sparse_m1, hbv]
  · simp

lemma single0_vecMul_m2 (t : ℕ) (ht : 0 < t) (m : Matrix (Fin t) (Fin t) F)
    (wcap : Fin t → F) (x : F) :
    Matrix.vecMul (Pi.single (⟨0, ht⟩ : Fin t) x) (sparse_m2 t m wcap) =
      Matrix.vecMul (Pi.single (⟨0, ht⟩ : Fin t) x) m := by
  rw [Matrix.single_vecMul, Matrix.single_vecMul]
  rfl

lemma at0_apply (t : ℕ) (ht : 0 < t) (v : Fin t → F) : at0 t v = v ⟨0, ht⟩ :=
  dif_pos ht

/-- One telescoping step of the partial-round equivalence: pushing one plain
partial round (with constant block `D`) through the sparse factorization.
`A` stands for `acc @ m_inv` at the previous back-substitution step, so
`at0 A` is the emitted scalar constant and zeroing entry 0 of `A` and adding
`D` is the next accumulator. -/
lemma opt_part_step (t : ℕ) (ht : 0 < t) (sbox : F → F)
    (M Minv m : Matrix (Fin t) (Fin t) F) (hinv : Minv * M = 1)
    (wcap : Fin t → F) (hfact : m = sparse_m1 t m * sparse_m2 t m wcap)
    (Y A D : Fin t → F) :
    partRoundOptC t sbox (at0 t A) (sparse_m2 t m wcap)
        (Matrix.vecMul
          (Y + Matrix.vecMul ((fun i => if i.val = 0 then 0 else A i) + D) Minv)
          (M * sparse_m1 t m))
      = Matrix.vecMul (sboxAt0Vec t sbox (Matrix.vecMul Y M + D) + A) m := by
  have hBW : Matrix.vecMul
      (Y + Matrix.vecMul ((fun i => if i.val = 0 then 0 else A i) + D) Minv)
      (M * sparse_m1 t m) =
      Matrix.vecMul (Matrix.vecMul Y M + ((fun i => if i.val = 0 then 0 else A i) + D))
        (sparse_m1 t m) := by
    rw [← Matrix.vecMul_vecMul]
    rw [Matrix.add_vecMul, Matrix.vecMul_vecMul, hinv, Matrix.vecMul_one]
  set W : Fin t → F :=
    Matrix.vecMul Y M + ((fun i => if i.val = 0 then 0 else A i) + D) with hW
  set Z : Fin t → F := Matrix.vecMul Y M + D with hZ
  have hW0 : W ⟨0, ht⟩ = Z ⟨0, ht⟩ := by
    simp [hW, hZ]
  have hB0 : Matrix.vecMul W (sparse_m1 t m) ⟨0, ht⟩ = Z ⟨0, ht⟩ := by
    rw [vecMul_m1_at0 t ht, hW0]
  unfold partRoundOptC
  rw [hBW]
  have hpb : (fun i => if i.val = 0 then
        sbox (Matrix.vecMul W (sparse_m1 t m) i) + at0 t A
      else Matrix.vecMul W (sparse_m1 t m) i) =
      Matrix.vecMul W (sparse_m1 t m) +
        Pi.single (⟨0, ht⟩ : Fin t)
          (sbox (Z ⟨0, ht⟩) + A ⟨0, ht⟩ - Z ⟨0, ht⟩) := by
    funext i
    by_cases h0 : i.val = 0
    · have hii : i = (⟨0, ht⟩ : Fin t) := Fin.ext h0
      subst hii
      simp only [if_pos rfl, Pi.add_apply, Pi.single_eq_same]
      rw [at0_apply t ht, hB0]
      simp
    · have hii : i ≠ (⟨0, ht⟩ : Fin t) := fun he => h0 (by rw [he])
      simp [h0, Pi.single_eq_of_ne hii]
  rw [hpb, Matrix.add_vecMul, Matrix.vecMul_vecMul, ← hfact,
    single0_vecMul_m2 t ht]
  have hrhs : sboxAt0Vec t sbox Z + A =
      W + Pi.single (⟨0, ht⟩ : Fin t)
        (sbox (Z ⟨0, ht⟩) + A ⟨0, ht⟩ - Z ⟨0, ht⟩) := by
    funext i
    by_cases h0 : i.val = 0
    · have hii : i = (⟨0, ht⟩ : Fin t) := Fin.ext h0
      subst hii
      simp only [sboxAt0Vec, Pi.add_apply, Pi.single_eq_same, if_pos rfl, hW, hZ]
      simp
    · have hii : i ≠ (⟨0, ht⟩ : Fin t) := fun he => h0 (by rw [he])
      simp only [sboxAt0Vec, Pi.add_apply, if_neg h0, Pi.single_eq_of_ne hii,
        add_zero, hW, hZ]
      ring
  rw [← Matrix.add_vecMul, ← hrhs]

lemma fullRoundOptC_shift (t : ℕ) (sbox : F → F) (M Minv : Matrix (Fin t) (Fin t) F)
    (hinv : Minv * M = 1) (chOld chNew X : Fin t → F) :
    fullRoundOptC t sbox M (Matrix.vecMul chNew Minv) (X + chOld)
      = fullRoundRow t sbox M chOld X + chNew := by
  unfold fullRoundOptC fullRoundRow
  have h1 : (fun i => sbox ((X + chOld) i) + Matrix.vecMul chNew Minv i)
      = (fun i => sbox (X i + chOld i)) + Matrix.vecMul chNew Minv := rfl
  rw [h1, Matrix.add_vecMul, Matrix.vecMul_vecMul, hinv, Matrix.vecMul_one]

/-- Telescoping of the optimized full rounds: if the optimized state carries
the plain state plus the pending constant block `rcC b`, one optimized full
round (with constant block `rcC (b+r+1) @ m_inv`) keeps the invariant with
the pending block advanced. -/
lemma opt_full_block (t : ℕ) (sbox : F → F) (M Minv : Matrix (Fin t) (Fin t) F)
    (hinv : Minv * M = 1) (rcC : ℕ → Fin t → F) (b : ℕ) :
    ∀ (n : ℕ) (s u : Fin t → F), u = s + rcC b →
      foldRounds t (fun r s0 => fullRoundOptC t sbox M
          (Matrix.vecMul (rcC (b + r + 1)) Minv) s0) 0 n u
        = foldRounds t (fun r s0 => fullRoundRow t sbox M (rcC (b + r)) s0) 0 n s
            + rcC (b + n) := by
  intro n
  induction n with
  | zero => intro s u hu; exact hu
  | succ n ih =>
    intro s u hu
    simp only [foldRounds, Nat.zero_add]
    rw [ih s u hu, fullRoundOptC_shift t sbox M Minv hinv (rcC (b + n))
      (rcC (b + n + 1)) _]
    rfl

/-- The plain-side state entering partial round `r` of the telescoped block,
in the form `sbox-at-0 of (previous state times M plus constants)`. -/
def partBlockY (t : ℕ) (sbox : F → F) (M : Matrix (Fin t) (Fin t) F)
    (rcC : ℕ → Fin t → F) (base : ℕ) (y : Fin t → F) : ℕ → Fin t → F
  | 0 => y
  | r + 1 => sboxAt0Vec t sbox
      (Matrix.vecMul (partBlockY t sbox M rcC base y r) M + rcC (base + r))

lemma partBlockY_fold (t : ℕ) (sbox : F → F) (M : Matrix (Fin t) (Fin t) F)
    (rcC : ℕ → Fin t → F) (base : ℕ) (y : Fin t → F) (r : ℕ) :
    foldRounds t (fun r u => partRoundRow t sbox M (rcC (base + r)) u) 0 r
        (Matrix.vecMul y M)
      = Matrix.vecMul (partBlockY t sbox M rcC base y r) M := by
  induction r with
  | zero => rfl
  | succ r ih =>
    simp only [foldRounds, Nat.zero_add, ih, partBlockY]
    rfl

/-- Telescoping of the optimized partial rounds through the sparse
factorization and the back-substituted constants: starting from the
boundary state (plain carrier `y` plus `acc_k @ m_inv`, multiplied by the
pre-matrix `m_k`), the `k` optimized partial rounds (reversed constants,
reversed sparse matrices) land on the plain partial-round result plus the
pending constant block `rcC (base + k)`. -/
lemma opt_part_block (t : ℕ) (ht : 0 < t) (sbox : F → F)
    (M Minv : Matrix (Fin t) (Fin t) F) (hinv : Minv * M = 1)
    (wc : ℕ → Fin t → F) (rcC : ℕ → Fin t → F) (k base : ℕ)
    (hfact : ∀ j < k, optMseq t M j =
      sparse_m1 t (optMseq t M j) * sparse_m2 t (optMseq t M j) (wc j))
    (y : Fin t → F) :
    foldRounds t (fun r u => partRoundOptC t sbox
        (optPartCst t Minv rcC (base + k) (k - 1 - r))
        (sparse_m2 t (optMseq t M (k - 1 - r)) (wc (k - 1 - r))) u) 0 k
        (Matrix.vecMul (y + Matrix.vecMul (optAcc t Minv rcC (base + k) k) Minv)
          (optMseq t M k))
      = foldRounds t (fun r u => partRoundRow t sbox M (rcC (base + r)) u) 0 k
          (Matrix.vecMul y M) + rcC (base + k) := by
  have inv : ∀ r, r ≤ k →
      foldRounds t (fun r u => partRoundOptC t sbox
          (optPartCst t Minv rcC (base + k) (k - 1 - r))
          (sparse_m2 t (optMseq t M (k - 1 - r)) (wc (k - 1 - r))) u) 0 r
          (Matrix.vecMul (y + Matrix.vecMul (optAcc t Minv rcC (base + k) k) Minv)
            (optMseq t M k))
        = Matrix.vecMul (partBlockY t sbox M rcC base y r +
            Matrix.vecMul (optAcc t Minv rcC (base + k) (k - r)) Minv)
          (optMseq t M (k - r)) := by
    intro r
    induction r with
    | zero => intro _; rfl
    | succ r ih =>
      intro hrk
      have hr : r < k := by omega
      simp only [foldRounds, Nat.zero_add]
      rw [ih (by omega)]
      have hkr1 : k - (r + 1) = k - 1 - r := by omega
      have hj1 : k - r = (k - 1 - r) + 1 := by omega
      rw [hkr1, hj1]
      have hmseq : optMseq t M ((k - 1 - r) + 1)
          = M * sparse_m1 t (optMseq t M (k - 1 - r)) := rfl
      have haccstep : optAcc t Minv rcC (base + k) ((k - 1 - r) + 1)
          = (fun i => if i.val = 0 then 0 else
              Matrix.vecMul (optAcc t Minv rcC (base + k) (k - 1 - r)) Minv i)
            + rcC (base + r) := by
        simp only [optAcc]
        have hidx : base + k - (k - 1 - r) - 1 = base + r := by omega
        rw [hidx]
      rw [hmseq, haccstep]
      have hstep := opt_part_step t ht sbox M Minv (optMseq t M (k - 1 - r)) hinv
        (wc (k - 1 - r)) (hfact (k - 1 - r) (by omega))
        (partBlockY t sbox M rcC base y r)
        (Matrix.vecMul (optAcc t Minv rcC (base + k) (k - 1 - r)) Minv)
        (rcC (base + r))
      rw [show optPartCst t Minv rcC (base + k) (k - 1 - r)
          = at0 t (Matrix.vecMul (optAcc t Minv rcC (base + k) (k - 1 - r)) Minv)
        from rfl]
      rw [hstep]
      rfl
  rw [inv k le_rfl]
  have h0 : k - k = 0 := by omega
  rw [h0]
  show Matrix.vecMul (partBlockY t sbox M rcC base y k +
      Matrix.vecMul (rcC (base + k)) Minv) M = _
  rw [Matrix.add_vecMul, Matrix.vecMul_vecMul, hinv, Matrix.vecMul_one,
    partBlockY_fold]

omit [CommRing F] in
lemma getD_ofFn (t : ℕ) (f : Fin t → F) (i : Fin t) (d : F) :
    (List.ofFn f).getD i.val d = f i := by
  have h : i.val < (List.ofFn f).length := by simp [i.isLt]
  rw [List.getD_eq_getElem _ d h]
  simp

omit [CommRing F] in
lemma getD_flatten_ofFn (t : ℕ) (g : ℕ → Fin t → F) (d : F) :
    ∀ (n r : ℕ) (i : Fin t), r < n →
      (List.flatten ((List.range n).map fun r => List.ofFn (g r))).getD
          (r * t + i.val) d = g r i := by
  intro n
  induction n with
  | zero => intro r i hr; omega
  | succ n ih =>
    intro r i hr
    rw [List.range_succ]
    simp only [List.map_append, List.map_cons, List.map_nil, List.flatten_append,
      List.flatten_cons, List.flatten_nil, List.append_nil]
    by_cases h : r < n
    · have hb : r * t + i.val <
          (List.flatten ((List.range n).map fun r => List.ofFn (g r))).length := by
        rw [length_flatten_ofFn]
        have h1 : (r + 1) * t ≤ n * t := Nat.mul_le_mul_right t (by omega)
        have h2 : (r + 1) * t = r * t + t := Nat.succ_mul r t
        have h3 := i.isLt
        omega
      rw [List.getD_append _ _ _ _ hb]
      exact ih r i h
    · have hrn : r = n := by omega
      subst hrn
      have hb : (List.flatten ((List.range r).map fun r => List.ofFn (g r))).length
          ≤ r * t + i.val := by
        rw [length_flatten_ofFn]
        omega
      rw [List.getD_append_right _ _ _ _ hb]
      rw [length_flatten_ofFn]
      have : r * t + i.val - r * t = i.val := by omega
      rw [this]
      exact getD_ofFn t (g r) i d

omit [CommRing F] in
lemma getD_reverse_map_range (g : ℕ → F) (n r : ℕ) (hr : r < n) (d : F) :
    (((List.range n).map g).reverse).getD r d = g (n - 1 - r) := by
  have hlen : ((List.range n).map g).reverse.length = n := by simp
  rw [List.getD_eq_getElem _ _ (by omega : r < ((List.range n).map g).reverse.length)]
  rw [List.getElem_reverse]
  simp

lemma optimized_rc_getD_pre (t : ℕ) (rcC : ℕ → Fin t → F) (hf rP : ℕ)
    (Minv : Matrix (Fin t) (Fin t) F) (i : Fin t) :
    (optimized_rc t rcC hf rP Minv).getD i.val 0 = rcC 0 i := by
  unfold optimized_rc
  have hi := i.isLt
  rw [List.getD_append _ _ _ _ (by simp only [List.length_append, List.length_ofFn, length_flatten_ofFn, List.length_reverse, List.length_map, List.length_range, Nat.add_sub_cancel]; omega)]
  rw [List.getD_append _ _ _ _ (by simp only [List.length_append, List.length_ofFn, length_flatten_ofFn, List.length_reverse, List.length_map, List.length_range, Nat.add_sub_cancel]; omega)]
  rw [List.getD_append _ _ _ _ (by simp only [List.length_append, List.length_ofFn, length_flatten_ofFn, List.length_reverse, List.length_map, List.length_range, Nat.add_sub_cancel]; omega)]
  rw [List.getD_append _ _ _ _ (by simp only [List.length_ofFn]; exact i.isLt)]
  exact getD_ofFn t (rcC 0) i 0

omit [CommRing F] in
lemma getD_append_offset (l l' : List F) (d : F) (x n : ℕ) (h : l.length = n) :
    (l ++ l').getD (n + x) d = l'.getD x d := by
  subst h
  rw [List.getD_append_right _ _ _ _ (by omega)]
  simp

lemma optimized_rc_getD_full1 (t : ℕ) (rcC : ℕ → Fin t → F) (hf rP : ℕ)
    (Minv : Matrix (Fin t) (Fin t) F) (r : ℕ) (hr : r < hf - 1) (i : Fin t) :
    (optimized_rc t rcC hf rP Minv).getD (t + (r * t + i.val)) 0
      = Matrix.vecMul (rcC (r + 1)) Minv i := by
  unfold optimized_rc
  have hi := i.isLt
  have h1 : (r + 1) * t ≤ (hf - 1) * t := Nat.mul_le_mul_right t (by omega)
  have h2 : (r + 1) * t = r * t + t := Nat.succ_mul r t
  rw [List.getD_append _ _ _ _ (by simp only [List.length_append, List.length_ofFn, length_flatten_ofFn, List.length_reverse, List.length_map, List.length_range, Nat.add_sub_cancel]; omega)]
  rw [List.getD_append _ _ _ _ (by simp only [List.length_append, List.length_ofFn, length_flatten_ofFn, List.length_reverse, List.length_map, List.length_range, Nat.add_sub_cancel]; omega)]
  rw [List.getD_append _ _ _ _ (by simp only [List.length_append, List.length_ofFn, length_flatten_ofFn, List.length_reverse, List.length_map, List.length_range, Nat.add_sub_cancel]; omega)]
  rw [getD_append_offset _ _ _ _ _ (by simp)]
  exact getD_flatten_ofFn t _ 0 (hf - 1) r i hr

lemma optimized_rc_getD_hat (t : ℕ) (rcC : ℕ → Fin t → F) (hf rP : ℕ)
    (Minv : Matrix (Fin t) (Fin t) F) (hhf : 1 ≤ hf) (i : Fin t) :
    (optimized_rc t rcC hf rP Minv).getD (hf * t + i.val) 0
      = Matrix.vecMul (optAcc t Minv rcC (hf + rP) rP) Minv i := by
  obtain ⟨k, rfl⟩ : ∃ k, hf = k + 1 := ⟨hf - 1, by omega⟩
  unfold optimized_rc
  have hi := i.isLt
  have h2 : (k + 1) * t = k * t + t := Nat.succ_mul k t
  have hpos : (k + 1) * t + i.val = (t + k * t) + i.val := by omega
  rw [hpos]
  rw [List.getD_append _ _ _ _ (by simp only [List.length_append, List.length_ofFn, length_flatten_ofFn, List.length_reverse, List.length_map, List.length_range, Nat.add_sub_cancel]; omega)]
  rw [List.getD_append _ _ _ _ (by simp only [List.length_append, List.length_ofFn, length_flatten_ofFn, List.length_reverse, List.length_map, List.length_range, Nat.add_sub_cancel]; omega)]
  rw [getD_append_offset _ _ _ _ _ (by simp only [List.length_append, List.length_ofFn, length_flatten_ofFn, List.length_reverse, List.length_map, List.length_range, Nat.add_sub_cancel])]
  exact getD_ofFn t _ i 0

lemma optimized_rc_getD_pcst (t : ℕ) (rcC : ℕ → Fin t → F) (hf rP : ℕ)
    (Minv : Matrix (Fin t) (Fin t) F) (hhf : 1 ≤ hf) (r : ℕ) (hr : r < rP) :
    (optimized_rc t rcC hf rP Minv).getD ((hf + 1) * t + r) 0
      = optPartCst t Minv rcC (hf + rP) (rP - 1 - r) := by
  obtain ⟨k, rfl⟩ : ∃ k, hf = k + 1 := ⟨hf - 1, by omega⟩
  unfold optimized_rc
  have h2 : (k + 1 + 1) * t = k * t + t + t := by ring
  have hpos : (k + 1 + 1) * t + r = ((t + k * t) + t) + r := by omega
  rw [hpos]
  rw [List.getD_append _ _ _ _ (by simp only [List.length_append, List.length_ofFn, length_flatten_ofFn, List.length_reverse, List.length_map, List.length_range, Nat.add_sub_cancel]; omega)]
  rw [getD_append_offset _ _ _ _ _ (by simp only [List.length_append, List.length_ofFn, length_flatten_ofFn, List.length_reverse, List.length_map, List.length_range, Nat.add_sub_cancel])]
  exact getD_reverse_map_range _ rP r hr 0

lemma optimized_rc_getD_full2 (t : ℕ) (rcC : ℕ → Fin t → F) (hf rP : ℕ)
    (Minv : Matrix (Fin t) (Fin t) F) (hhf : 1 ≤ hf) (r : ℕ) (hr : r < hf - 1)
    (i : Fin t) :
    (optimized_rc t rcC hf rP Minv).getD ((hf + 1) * t + rP + (r * t + i.val)) 0
      = Matrix.vecMul (rcC (hf + rP + r + 1)) Minv i := by
  obtain ⟨k, rfl⟩ : ∃ k, hf = k + 1 := ⟨hf - 1, by omega⟩
  unfold optimized_rc
  have h2 : (k + 1 + 1) * t = k * t + t + t := by ring
  have hpos : (k + 1 + 1) * t + rP + (r * t + i.val)
      = (((t + k * t) + t) + rP) + (r * t + i.val) := by omega
  rw [hpos]
  rw [getD_append_offset _ _ _ _ _ (by simp only [List.length_append, List.length_ofFn, length_flatten_ofFn, List.length_reverse, List.length_map, List.length_range, Nat.add_sub_cancel])]
  exact getD_flatten_ofFn t _ 0 (k + 1 - 1) r i hr

lemma optimized_matrix_sparse_getD (t : ℕ) (M : Matrix (Fin t) (Fin t) F)
    (rP : ℕ) (wc : ℕ → Fin t → F) (r : ℕ) (hr : r < rP) :
    (optimized_matrix_sparse t M rP wc).getD r 1
      = sparse_m2 t (optMseq t M (rP - 1 - r)) (wc (rP - 1 - r)) :=
  getD_reverse_map_range _ rP r hr 1

lemma full_round_opt_iter (t : ℕ) (sbox : F → F) (M : Matrix (Fin t) (Fin t) F)
    (orc : ℕ → F) (n c0 : ℕ) (v : Fin t → F) :
    (full_round_opt t sbox M orc)^[n] (v, c0) =
      (foldRounds t (fun r s => Matrix.vecMul
          (fun i => sbox (s i) + orc (c0 + r * t + i.val)) M) 0 n v,
        c0 + n * t) := by
  induction n with
  | zero => simp [foldRounds]
  | succ n ih =>
    rw [Function.iterate_succ_apply', ih]
    unfold full_round_opt
    simp only [foldRounds, Nat.zero_add, Prod.mk.injEq]
    refine ⟨?_, by ring⟩
    rw [posLoop_all]

lemma part_rounds_opt_eq (t : ℕ) (sbox : F → F) (orc : ℕ → F)
    (sparse : List (Matrix (Fin t) (Fin t) F)) (rP : ℕ) (v : Fin t → F) (c0 : ℕ) :
    part_rounds_opt t sbox orc sparse rP (v, c0) =
      (foldRounds t (fun r u => partRoundOptC t sbox (orc (c0 + r))
          (sparse.getD r 1) u) 0 rP v,
        c0 + rP) := by
  unfold part_rounds_opt
  induction rP with
  | zero => simp [foldRounds]
  | succ n ih =>
    rw [List.range_succ, List.foldl_append, ih]
    simp only [List.foldl_cons, List.foldl_nil, foldRounds, Nat.zero_add,
      Prod.mk.injEq]
    rfl

theorem opt_core_eq_plain_permute (t : ℕ) (sbox : F → F)
    (M Minv : Matrix (Fin t) (Fin t) F) (ht : 0 < t) (hsym : M.transpose = M)
    (hinv : Minv * M = 1) (kk rP : ℕ) (wc : ℕ → Fin t → F)
    (hfact : ∀ j < rP, optMseq t M j =
      sparse_m1 t (optMseq t M j) * sparse_m2 t (optMseq t M j) (wc j))
    (rc : ℕ → F) (v : Fin t → F) :
    opt_core t sbox M (optimized_matrix_pre t M rP)
        (optimized_matrix_sparse t M rP wc)
        (fun k => (optimized_rc t (rcChunk t rc) (kk + 1) rP Minv).getD k 0)
        (kk + 1) rP v
      = plain_permute t sbox M rc (kk + 1) rP v := by
  rw [plain_permute_eq_spec]
  unfold plain_spec_run
  rw [fullRoundSpec_eq_row t sbox M hsym, partRoundSpec_eq_row t sbox M hsym]
  simp only [opt_core, Nat.add_sub_cancel]
  have h2 : (kk + 1) * t = kk * t + t := Nat.succ_mul kk t
  have h3 : (kk + 1 + 1) * t = kk * t + t + t := by ring
  -- pre-round constants
  have e0 : posLoop t
      (fun w n => w + (optimized_rc t (rcChunk t rc) (kk + 1) rP Minv).getD n 0)
      0 v t = v + rcChunk t rc 0 := by
    rw [posLoop_all]
    funext i
    show v i + (optimized_rc t (rcChunk t rc) (kk + 1) rP Minv).getD (0 + i.val) 0
      = v i + rcChunk t rc 0 i
    rw [Nat.zero_add, optimized_rc_getD_pre]
  rw [e0]
  -- first optimized full rounds
  have e1 : (full_round_opt t sbox M fun k =>
        (optimized_rc t (rcChunk t rc) (kk + 1) rP Minv).getD k 0)^[kk]
        (v + rcChunk t rc 0, t) =
      (foldRounds t (fun r s0 => fullRoundRow t sbox M (rcChunk t rc r) s0) 0 kk v
          + rcChunk t rc kk,
        t + kk * t) := by
    rw [full_round_opt_iter]
    simp only [Prod.mk.injEq]
    refine ⟨?_, by simp⟩
    rw [foldRounds_congr t _
      (fun r s0 => fullRoundOptC t sbox M
        (Matrix.vecMul (rcChunk t rc (0 + r + 1)) Minv) s0) 0 kk ?hc]
    case hc =>
      intro r _ hr s
      unfold fullRoundOptC
      have harg : (fun i : Fin t => sbox (s i) +
            (optimized_rc t (rcChunk t rc) (kk + 1) rP Minv).getD (t + r * t + i.val) 0)
          = fun i => sbox (s i) + Matrix.vecMul (rcChunk t rc (0 + r + 1)) Minv i := by
        funext i
        have hidx : t + r * t + i.val = t + (r * t + i.val) := by omega
        rw [hidx, optimized_rc_getD_full1 t (rcChunk t rc) (kk + 1) rP Minv r
          (by omega) i]
        have hidx2 : 0 + r + 1 = r + 1 := by omega
        rw [hidx2]
      rw [harg]
    rw [opt_full_block t sbox M Minv hinv (rcChunk t rc) 0 kk v _ rfl]
    rw [foldRounds_congr t (fun r s0 => fullRoundRow t sbox M (rcChunk t rc (0 + r)) s0)
      (fun r s0 => fullRoundRow t sbox M (rcChunk t rc r) s0) 0 kk
      (by intro r _ _ s; simp only [Nat.zero_add])]
    rw [Nat.zero_add]
  rw [e1]
  -- boundary sbox-plus-constant pass
  have e2 : ∀ s : Fin t → F, posLoop t
      (fun w n => sbox w + (optimized_rc t (rcChunk t rc) (kk + 1) rP Minv).getD n 0)
      (t + kk * t) s t =
      (fun i => sbox (s i)) +
        Matrix.vecMul (optAcc t Minv (rcChunk t rc) ((kk + 1) + rP) rP) Minv := by
    intro s
    rw [posLoop_all]
    funext i
    show sbox (s i) +
        (optimized_rc t (rcChunk t rc) (kk + 1) rP Minv).getD (t + kk * t + i.val) 0
      = _
    have hidx : t + kk * t + i.val = (kk + 1) * t + i.val := by omega
    rw [hidx, optimized_rc_getD_hat t (rcChunk t rc) (kk + 1) rP Minv (by omega) i]
    rfl
  rw [e2]
  rw [show optimized_matrix_pre t M rP = optMseq t M rP from rfl]
  -- optimized partial rounds
  have e3 : part_rounds_opt t sbox
      (fun k => (optimized_rc t (rcChunk t rc) (kk + 1) rP Minv).getD k 0)
      (optimized_matrix_sparse t M rP wc) rP
      (Matrix.vecMul
        ((fun i => sbox ((foldRounds t
            (fun r s0 => fullRoundRow t sbox M (rcChunk t rc r) s0) 0 kk v
              + rcChunk t rc kk) i)) +
          Matrix.vecMul (optAcc t Minv (rcChunk t rc) ((kk + 1) + rP) rP) Minv)
        (optMseq t M rP),
        t + kk * t + t) =
      (foldRounds t (fun r u => partRoundRow t sbox M (rcChunk t rc ((kk + 1) + r)) u)
          0 rP (Matrix.vecMul (fun i => sbox ((foldRounds t
            (fun r s0 => fullRoundRow t sbox M (rcChunk t rc r) s0) 0 kk v
              + rcChunk t rc kk) i)) M)
        + rcChunk t rc ((kk + 1) + rP),
        t + kk * t + t + rP) := by
    rw [part_rounds_opt_eq]
    simp only [Prod.mk.injEq]
    refine ⟨?_, by simp⟩
    rw [foldRounds_congr t _
      (fun r u => partRoundOptC t sbox
        (optPartCst t Minv (rcChunk t rc) ((kk + 1) + rP) (rP - 1 - r))
        (sparse_m2 t (optMseq t M (rP - 1 - r)) (wc (rP - 1 - r))) u) 0 rP ?hp]
    case hp =>
      intro r _ hr u
      have hidx : t + kk * t + t + r = ((kk + 1) + 1) * t + r := by omega
      rw [hidx, optimized_rc_getD_pcst t (rcChunk t rc) (kk + 1) rP Minv
        (by omega) r (by omega)]
      rw [optimized_matrix_sparse_getD t M rP wc r (by omega)]
    exact opt_part_block t ht sbox M Minv hinv wc (rcChunk t rc) rP (kk + 1) hfact _
  rw [e3]
  -- last optimized full rounds
  have e4 : (full_round_opt t sbox M fun k =>
        (optimized_rc t (rcChunk t rc) (kk + 1) rP Minv).getD k 0)^[kk]
        (foldRounds t (fun r u => partRoundRow t sbox M (rcChunk t rc ((kk + 1) + r)) u)
            0 rP (Matrix.vecMul (fun i => sbox ((foldRounds t
              (fun r s0 => fullRoundRow t sbox M (rcChunk t rc r) s0) 0 kk v
                + rcChunk t rc kk) i)) M)
          + rcChunk t rc ((kk + 1) + rP),
          t + kk * t + t + rP) =
      (foldRounds t (fun r s0 => fullRoundRow t sbox M (rcChunk t rc ((kk + 1) + rP + r)) s0)
          0 kk (foldRounds t
            (fun r u => partRoundRow t sbox M (rcChunk t rc ((kk + 1) + r)) u)
            0 rP (Matrix.vecMul (fun i => sbox ((foldRounds t
              (fun r s0 => fullRoundRow t sbox M (rcChunk t rc r) s0) 0 kk v
                + rcChunk t rc kk) i)) M))
        + rcChunk t rc ((kk + 1) + rP + kk),
        t + kk * t + t + rP + kk * t) := by
    rw [full_round_opt_iter]
    simp only [Prod.mk.injEq]
    refine ⟨?_, by simp⟩
    rw [foldRounds_congr t _
      (fun r s0 => fullRoundOptC t sbox M
        (Matrix.vecMul (rcChunk t rc ((kk + 1) + rP + r + 1)) Minv) s0) 0 kk ?hq]
    case hq =>
      intro r _ hr s
      unfold fullRoundOptC
      have harg : (fun i : Fin t => sbox (s i) +
            (optimized_rc t (rcChunk t rc) (kk + 1) rP Minv).getD
              (t + kk * t + t + rP + r * t + i.val) 0)
          = fun i => sbox (s i) +
              Matrix.vecMul (rcChunk t rc ((kk + 1) + rP + r + 1)) Minv i := by
        funext i
        have hidx : t + kk * t + t + rP + r * t + i.val
            = (kk + 1 + 1) * t + rP + (r * t + i.val) := by omega
        rw [hidx, optimized_rc_getD_full2 t (rcChunk t rc) (kk + 1) rP Minv
          (by omega) r (by omega) i]
      rw [harg]
    exact opt_full_block t sbox M Minv hinv (rcChunk t rc) ((kk + 1) + rP) kk _ _ rfl
  rw [e4]
  -- final sbox pass and matrix
  rw [posLoop_all]
  dsimp only
  have hX1 : foldRounds t (fun r => fullRoundRow t sbox M (rcChunk t rc r)) 0 (kk + 1) v
      = Matrix.vecMul (fun i => sbox ((foldRounds t
          (fun r s0 => fullRoundRow t sbox M (rcChunk t rc r) s0) 0 kk v
            + rcChunk t rc kk) i)) M := by
    simp only [foldRounds, Nat.zero_add]
    rfl
  have hX2 : foldRounds t (fun r => partRoundRow t sbox M (rcChunk t rc r)) (kk + 1) rP
        (foldRounds t (fun r => fullRoundRow t sbox M (rcChunk t rc r)) 0 (kk + 1) v)
      = foldRounds t (fun r u => partRoundRow t sbox M (rcChunk t rc ((kk + 1) + r)) u)
          0 rP (Matrix.vecMul (fun i => sbox ((foldRounds t
            (fun r s0 => fullRoundRow t sbox M (rcChunk t rc r) s0) 0 kk v
              + rcChunk t rc kk) i)) M) := by
    rw [hX1, ← foldRounds_shift t (fun r => partRoundRow t sbox M (rcChunk t rc r)) (kk + 1) rP]
  rw [← hX2]
  rw [← foldRounds_shift t (fun r => fullRoundRow t sbox M (rcChunk t rc r)) (kk + 1 + rP) (kk + 1)]
  simp only [foldRounds, Nat.zero_add]
  rfl

end C1core

/-- Claim C1 counterexample: the conformance equality fails for a
*non-symmetric* (invertible) supplied MDS matrix.  Over `ZMod 11` with
`t = 2`, `full_round = 2`, `partial_round = 1`, all-zero round constants,
merkle-tree mode and input `[0]`, the matrix `[[1,2],[3,4]]` is invertible
(inverse `[[9,1],[7,5]]`) and the sparse factorization assertion holds, yet
the optimized hash differs from the plain hash of the domain-separated
input: the plain engine left-multiplies the matrix while the optimized
engine right-multiplies it. -/
theorem opt_plain_disagree_nonsymmetric_mds :
    ((Matrix.of ![![9, 1], ![7, 5]] : Matrix (Fin 2) (Fin 2) (ZMod 11)) *
        Matrix.of ![![1, 2], ![3, 4]] = 1) ∧
    ((Matrix.of ![![1, 2], ![3, 4]] : Matrix (Fin 2) (Fin 2) (ZMod 11)) *
        Matrix.of ![![9, 1], ![7, 5]] = 1) ∧
    (∀ j < 1, optMseq 2 (Matrix.of ![![1, 2], ![3, 4]] :
        Matrix (Fin 2) (Fin 2) (ZMod 11)) j =
      sparse_m1 2 (optMseq 2 (Matrix.of ![![1, 2], ![3, 4]]) j) *
        sparse_m2 2 (optMseq 2 (Matrix.of ![![1, 2], ![3, 4]]) j) ![0, 9]) ∧
    run_hash_opt 11 2 1 HashType.merkleTree (s_box 3) (Matrix.of ![![1, 2], ![3, 4]])
        (optimized_matrix_pre 2 (Matrix.of ![![1, 2], ![3, 4]]) 1)
        (optimized_matrix_sparse 2 (Matrix.of ![![1, 2], ![3, 4]]) 1 (fun _ => ![0, 9]))
        (optimized_rc 2 (rcChunk 2 (fun k => ([] : List (ZMod 11)).getD k 0)) 1 1
          (Matrix.of ![![9, 1], ![7, 5]])) 1 1 [0]
      ≠ (run_hash_plain 11 2 (s_box 3) (Matrix.of ![![1, 2], ![3, 4]]) [] 1 1
          (domain_separation HashType.merkleTree 1 [0])).2 :=
  ⟨by decide, by decide, by decide, by decide⟩

/-- Claim C1 (amended): for every instance whose MDS matrix is *symmetric*
(as the generated Cauchy matrix `1/(x_i + y_j)` always is), with
`m_inv * M = 1` for the library-computed inverse, the source's
`assert m == m_1 @ m_2` holding at every factorization step, `t ≥ 2`,
`half_full_round ≥ 1`, and a valid input (length `< t`, domain-separated
vector of length exactly `t` with entries in `[0, p)`),
`OptimizedPoseidon.run_hash(input)` - run with the tables produced by
`optimized_rc` and `optimized_matrix` from the same round constants and
matrix - equals `Poseidon.run_hash([domain_tag, *input, *padding])`; in
particular both return element 1 of their final states. -/
theorem opt_run_hash_eq_plain_run_hash (p t input_rate : ℕ) (mode : HashType)
    (sbox : ZMod p → ZMod p) (M Minv : Matrix (Fin t) (Fin t) (ZMod p))
    (rcl : List (ZMod p)) (hf rP : ℕ) (wc : ℕ → Fin t → ZMod p)
    (input : List ℕ) (ht2 : 1 < t) (hhf : 1 ≤ hf)
    (hsym : M.transpose = M) (hinv : Minv * M = 1)
    (hfact : ∀ j < rP, optMseq t M j =
      sparse_m1 t (optMseq t M j) * sparse_m2 t (optMseq t M j) (wc j))
    (hil : input.length < t)
    (hlen : (domain_separation mode input_rate input).length = t)
    (hvals : ∀ x ∈ domain_separation mode input_rate input, x < p) :
    run_hash_opt p t input_rate mode sbox M (optimized_matrix_pre t M rP)
        (optimized_matrix_sparse t M rP wc)
        (optimized_rc t (rcChunk t (fun k => rcl.getD k 0)) hf rP Minv) hf rP input
      = (run_hash_plain p t sbox M rcl hf rP
          (domain_separation mode input_rate input)).2 := by
  obtain ⟨kk, rfl⟩ : ∃ kk, hf = kk + 1 := ⟨hf - 1, by omega⟩
  have hpad : plain_pad t (domain_separation mode input_rate input)
      = domain_separation mode input_rate input := by
    unfold plain_pad
    rw [hlen]
    simp
  unfold run_hash_opt run_hash_plain
  rw [if_neg (by omega : ¬ t ≤ input.length)]
  simp only [hpad, toFieldVec_eq_some p _ hvals, hlen, ite_true, dif_pos ht2]
  congr 1
  rw [opt_core_eq_plain_permute t sbox M Minv (by omega) hsym hinv kk rP wc hfact
    (fun k => rcl.getD k 0)]

/-- Witness for `opt_run_hash_eq_plain_run_hash`: the symmetric matrix
`[[1,2],[2,1]]` over `ZMod 11` with inverse `[[7,8],[8,7]]`, `t = 2`,
`full_round = 2`, `partial_round = 1`, constants `[1,…,6]`, merkle-tree
mode, input `[5]`. -/
theorem opt_run_hash_eq_plain_run_hash_witness :
    run_hash_opt 11 2 1 HashType.merkleTree (s_box 3) (Matrix.of ![![1, 2], ![2, 1]])
        (optimized_matrix_pre 2 (Matrix.of ![![1, 2], ![2, 1]]) 1)
        (optimized_matrix_sparse 2 (Matrix.of ![![1, 2], ![2, 1]]) 1 (fun _ => ![0, 2]))
        (optimized_rc 2 (rcChunk 2 (fun k =>
          ([1, 2, 3, 4, 5, 6] : List (ZMod 11)).getD k 0)) 1 1
          (Matrix.of ![![7, 8], ![8, 7]])) 1 1 [5]
      = (run_hash_plain 11 2 (s_box 3) (Matrix.of ![![1, 2], ![2, 1]])
          [1, 2, 3, 4, 5, 6] 1 1
          (domain_separation HashType.merkleTree 1 [5])).2 :=
  opt_run_hash_eq_plain_run_hash 11 2 1 HashType.merkleTree (s_box 3) _ _ _ 1 1 _ [5]
    (by decide) (by decide) (by decide) (by decide) (by decide) (by decide)
    (by decide) (by decide)

end PoseidonVerify
